import Mathlib

/-
Verification development for the stylometric-analysis pipeline in `src/app.py`.

The pipeline is embedded shallowly:
* filenames are lists of characters (Python strings iterated/sliced by index);
* the corpus loader (`load_and_train_model`, lines 39-51) is the triple of
  aligned list comprehensions it performs;
* distances: the code computes Euclidean distances (`cdist(..., 'euclidean')`
  and `NearestCentroid` with its default Euclidean metric) and only ever
  compares them (argmin).  The embedding uses squared Euclidean distances,
  which stay in `ℚ`; since `Real.sqrt` is strictly monotone on nonnegative
  inputs, every argmin/comparison below is invariant under this change.
* `np.argmin` and sklearn's `pairwise_distances_argmin` both return the first
  index attaining the minimum; `argminIdx` does the same.
* `round(q, 5)` is embedded as rounding `q * 10^5` to an integer.  (Python
  rounds exact half-ticks to even while `round` rounds them up; no claim
  below depends on a stored rounded value, only on unrounded comparisons.)
-/

namespace Estilometria

/-! ### Corpus loader (`load_and_train_model`, app.py lines 39-51) -/

/-- `filename.endswith('.txt')` (app.py line 40). -/
def endsWithTxt (name : List Char) : Bool :=
  List.isSuffixOf ['.', 't', 'x', 't'] name

/-- Author derivation (app.py lines 45-48): `filename.split("_")[0]` when the
filename contains an underscore, else the sentinel `"Desconocido"`.
`split("_")[0]` is the prefix of the filename strictly before its first
underscore. -/
def authorOf (name : List Char) : String :=
  if name.contains '_' then String.mk (name.takeWhile (fun c => c != '_'))
  else "Desconocido"

/-- `filename[:-4]` (app.py line 51): drop the last four characters. -/
def dropExt (name : List Char) : List Char :=
  name.take (name.length - 4)

/-- The record the spec's data model calls a Document. -/
structure Document where
  rawText : String
  author : String
  displayName : String
  deriving Repr, DecidableEq, Inhabited

/-- The `texts` list built by the loader loop (app.py lines 39-43). -/
def loadTexts (files : List (List Char × String)) : List String :=
  (files.filter (fun p => endsWithTxt p.1)).map (fun p => p.2)

/-- The `labels` list built by the loader loop (app.py lines 39-50). -/
def loadLabels (files : List (List Char × String)) : List String :=
  (files.filter (fun p => endsWithTxt p.1)).map (fun p => authorOf p.1)

/-- The `filenames` list built by the loader loop (app.py lines 39-51). -/
def loadFilenames (files : List (List Char × String)) : List String :=
  (files.filter (fun p => endsWithTxt p.1)).map (fun p => String.mk (dropExt p.1))

/-- The loader's per-file output, packaged as Documents (spec §3): the three
lists above are its three projections. -/
def loadDocuments (files : List (List Char × String)) : List Document :=
  (files.filter (fun p => endsWithTxt p.1)).map
    (fun p => { rawText := p.2, author := authorOf p.1,
                displayName := String.mk (dropExt p.1) })

/-! ### Nearest-centroid classifier (`NearestCentroid`, app.py lines 58-61, 103) -/

/-- Squared Euclidean distance between two equal-length vectors. -/
def sqDist (x y : List ℚ) : ℚ :=
  (List.zipWith (fun a b => (a - b) ^ 2) x y).sum

/-- One row of `cdist(X_reduced, clf.centroids_)` (app.py line 140): the
distances from one document vector to every centroid, in centroid order. -/
def cdistRow (x : List ℚ) (centroids : List (List ℚ)) : List ℚ :=
  centroids.map (fun c => sqDist x c)

/-- Helper for `argminIdx`: scan the remaining values, keeping the first
index attaining the strictly smallest value seen so far. -/
def argminAux : List ℚ → ℚ → Nat → Nat → Nat
  | [], _, bestIdx, _ => bestIdx
  | v :: vs, bestVal, bestIdx, cur =>
    if v < bestVal then argminAux vs v cur (cur + 1)
    else argminAux vs bestVal bestIdx (cur + 1)

/-- `np.argmin`: index of the first minimum of a list (0 on the empty list). -/
def argminIdx : List ℚ → Nat
  | [] => 0
  | v :: vs => argminAux vs v 0 1

/-- `clf.predict` on a single dense vector (app.py line 103): the label of the
nearest centroid, first index winning ties. -/
def predict (classes : List String) (centroids : List (List ℚ)) (x : List ℚ) : String :=
  classes.getD (argminIdx (cdistRow x centroids)) ""

/-- Lexicographic code-point order on character lists: the order numpy uses
when sorting a string array. -/
def charListLt : List Char → List Char → Bool
  | [], [] => false
  | [], _ :: _ => true
  | _ :: _, [] => false
  | a :: as', b :: bs' => if a < b then true else if b < a then false else charListLt as' bs'

/-- Lexicographic code-point order on strings. -/
def strLt (a b : String) : Bool := charListLt a.data b.data

/-- Insert a label into a sorted duplicate-free list of labels. -/
def insertClass (s : String) : List String → List String
  | [] => [s]
  | c :: cs =>
    if s = c then c :: cs
    else if strLt s c then s :: c :: cs
    else c :: insertClass s cs

/-- `np.unique(labels)`: the distinct labels in ascending order — this is the
`classes_` attribute produced by `clf.fit` (app.py line 59). -/
def classesOf (labels : List String) : List String :=
  labels.foldr insertClass []

/-- Pointwise sum of two equal-length vectors. -/
def vecAdd (x y : List ℚ) : List ℚ :=
  List.zipWith (fun a b => a + b) x y

/-- Mean of a list of equal-length vectors (`X[y == c].mean(axis=0)`). -/
def meanVec : List (List ℚ) → List ℚ
  | [] => []
  | r :: rs => (rs.foldl vecAdd r).map (fun a => a / ((rs.length + 1 : ℕ) : ℚ))

/-- The rows of `X_reduced` whose label equals `c`. -/
def classRows (x : List (List ℚ)) (labels : List String) (c : String) : List (List ℚ) :=
  ((x.zip labels).filter (fun p => p.2 == c)).map (fun p => p.1)

/-- `clf.centroids_` after `clf.fit(X_reduced, labels)` (app.py line 59): one
per-class mean vector, in `classes_` order. -/
def fitCentroids (x : List (List ℚ)) (labels : List String) : List (List ℚ) :=
  (classesOf labels).map (fun c => meanVec (classRows x labels c))

/-- `TruncatedSVD(n_components=50, ...)` (app.py line 55): the requested rank
is the constant 50; nothing in the code depends on the corpus size here. -/
def svd_n_components : ℕ := 50

/-- What `load_and_train_model` returns (app.py line 61), minus the library
handles.  The reduced matrix `X_reduced` is produced by the TF-IDF/SVD library
calls and is taken as a parameter. -/
structure TrainedModel where
  texts : List String
  labels : List String
  filenames : List String
  classes : List String
  centroids : List (List ℚ)
  deriving Repr, Inhabited

/-- `load_and_train_model` (app.py lines 35-61): load the corpus, then fit the
nearest-centroid classifier on the reduced matrix and the labels.  No
validation of corpus size or label count happens anywhere on this path. -/
def load_and_train_model (files : List (List Char × String))
    (xReduced : List (List ℚ)) : TrainedModel :=
  { texts := loadTexts files
    labels := loadLabels files
    filenames := loadFilenames files
    classes := classesOf (loadLabels files)
    centroids := fitCentroids xReduced (loadLabels files) }

/-! ### Evaluator (`identify_confusion_errors`, app.py lines 64-77) -/

/-- One entry of the `errors` list (app.py lines 72-76). -/
structure ConfusionRecord where
  true_label : String
  predicted_label : String
  misclassified_files : List String
  deriving Repr, DecidableEq, Inhabited

/-- `cm[i, j]` for `cm = confusion_matrix(labels, y_pred, labels=classes)`
(app.py line 66) with `a = classes[i]`, `b = classes[j]`: the number of
positions whose true label is `a` and predicted label is `b`. -/
def cmCell (labels yPred : List String) (a b : String) : ℕ :=
  (labels.zip yPred).countP (fun p => p.1 == a && p.2 == b)

/-- Triple zip of the aligned label / prediction / filename lists. -/
def zip3 : List String → List String → List String → List (String × String × String)
  | l :: ls, p :: ps, f :: fs => (l, p, f) :: zip3 ls ps fs
  | _, _, _ => []

/-- The misclassified-files comprehension (app.py lines 70-71): display names
of the positions with true label `a` and predicted label `b`. -/
def misclassifiedFiles (labels yPred filenames : List String) (a b : String) : List String :=
  ((zip3 labels yPred filenames).filter (fun t => t.1 == a && t.2.1 == b)).map
    (fun t => t.2.2)

/-- The record appended for cell `(i, j)` (app.py lines 72-76). -/
def mkConfusionRecord (labels yPred filenames classes : List String)
    (i j : ℕ) : ConfusionRecord :=
  { true_label := classes.getD i ""
    predicted_label := classes.getD j ""
    misclassified_files :=
      misclassifiedFiles labels yPred filenames (classes.getD i "") (classes.getD j "") }

/-- `identify_confusion_errors` (app.py lines 64-77): the double loop over
class indices, appending one record per off-diagonal cell with positive
count. -/
def identify_confusion_errors (labels yPred filenames classes : List String) :
    List ConfusionRecord :=
  (List.range classes.length).flatMap (fun i =>
    (List.range classes.length).filterMap (fun j =>
      if i ≠ j ∧ 0 < cmCell labels yPred (classes.getD i "") (classes.getD j "") then
        some (mkConfusionRecord labels yPred filenames classes i j)
      else none))

/-- The index pairs of the off-diagonal nonzero confusion-matrix cells, in
loop order. -/
def offDiagCells (labels yPred classes : List String) : List (ℕ × ℕ) :=
  (List.range classes.length).flatMap (fun i =>
    ((List.range classes.length).filter (fun j =>
        decide (i ≠ j ∧ 0 < cmCell labels yPred (classes.getD i "") (classes.getD j "")))).map
      (fun j => (i, j)))

/-- The sum of all off-diagonal confusion-matrix cells. -/
def offDiagTotal (labels yPred classes : List String) : ℕ :=
  ((List.range classes.length).map (fun i =>
    ((List.range classes.length).map (fun j =>
      if i = j then 0
      else cmCell labels yPred (classes.getD i "") (classes.getD j ""))).sum)).sum

/-! ### Distance Reporter (`distance_matrix`, app.py lines 138-151) -/

/-- `round(q, 5)` (app.py line 148). -/
def round5 (q : ℚ) : ℚ :=
  ((round (q * 100000) : ℤ) : ℚ) / 100000

/-- One row of the distance table (app.py lines 146-151). -/
structure DistRow where
  texto : String
  autor : String
  dists : List ℚ
  masCercano : String
  deriving Repr, DecidableEq, Inhabited

/-- The `distance_matrix` list (app.py lines 144-151): one row per filename,
carrying the display name, the true label, the rounded distances to every
centroid, and the label of the argmin of the (unrounded) distance row. -/
def distance_matrix (x : List (List ℚ)) (centroids : List (List ℚ))
    (classes labels filenames : List String) : List DistRow :=
  (List.range filenames.length).map (fun i =>
    { texto := filenames.getD i ""
      autor := labels.getD i ""
      dists := (cdistRow (x.getD i []) centroids).map round5
      masCercano := classes.getD (argminIdx (cdistRow (x.getD i []) centroids)) "" })

/-! ### Projector parameters (app.py lines 113 and 126) -/

/-- `perplexity = min(30, max(2, n_samples // 3))` (app.py line 113). -/
def perplexity (n_samples : ℕ) : ℕ :=
  min 30 (max 2 (n_samples / 3))

/-- `n_neighbors = min(15, max(2, n_samples // 3))` (app.py line 126). -/
def n_neighbors (n_samples : ℕ) : ℕ :=
  min 15 (max 2 (n_samples / 3))

/-- The spec's auto-scaling formula, written from its words: "scale =
min(library default, max(2, n/3))" (spec §4.5). -/
def specLocalityScale (libDefault n : ℕ) : ℕ :=
  min libDefault (max 2 (n / 3))

/-! ### Configuration surface (app.py lines 90-91, 53) -/

/-- The only validation the app applies to the n-gram configuration: the two
independent `number_input` bounds `min_value=1, max_value=10` (app.py lines
90-91).  No relation between the two values is checked. -/
def ngram_config_ok (ngram_min ngram_max : ℕ) : Bool :=
  decide ((1 ≤ ngram_min ∧ ngram_min ≤ 10) ∧ (1 ≤ ngram_max ∧ ngram_max ≤ 10))

/-- The pair handed to `TfidfVectorizer(ngram_range=...)` (app.py line 53):
the configuration values, unchanged. -/
def tfidf_ngram_range (ngram_min ngram_max : ℕ) : ℕ × ℕ :=
  (ngram_min, ngram_max)

/-- The clamped rank the spec demands (spec §4.2 / §7): the target rank 50
limited to the available dimensionality. -/
def specClampedRank (nSamples nFeatures : ℕ) : ℕ :=
  min 50 (min nSamples nFeatures)

/-- Modelled from the spec: the failure condition of the truncated
factorization, which is a library call and not part of `src/` — "if the corpus
has fewer than the target rank documents or terms, the rank must be clamped to
the available dimensionality, else the factorization fails" (spec §4.2).  So
the factorization fails exactly when the requested rank exceeds
`min(samples, features)`. -/
def factorizationFails (nSamples nFeatures rank : ℕ) : Bool :=
  decide (min nSamples nFeatures < rank)

/-! ### Helper lemmas -/

theorem getD_of_lt {α : Type} : ∀ (l : List α) (k : ℕ) (d : α) (h : k < l.length),
    l.getD k d = l.get ⟨k, h⟩
  | _ :: _, 0, _, _ => rfl
  | _ :: l, k + 1, d, h => getD_of_lt l k d (Nat.lt_of_succ_lt_succ h)

theorem exists_rest_of_contains : ∀ (name : List Char), name.contains '_' = true →
    ∃ rest, name = name.takeWhile (fun c => c != '_') ++ '_' :: rest := by
  intro name h
  induction name with
  | nil => simp at h
  | cons c cs ih =>
    by_cases hc : c = '_'
    · subst hc
      exact ⟨cs, by simp [List.takeWhile]⟩
    · have hcs : cs.contains '_' = true := by
        simp [List.contains_cons] at h
        rcases h with h | h
        · exact absurd h.symm hc
        · simpa using h
      obtain ⟨rest, hrest⟩ := ih hcs
      refine ⟨rest, ?_⟩
      have : (c != '_') = true := by simp [hc]
      simp [List.takeWhile, this]
      exact hrest

theorem not_underscore_mem_takeWhile (name : List Char) :
    '_' ∉ name.takeWhile (fun c => c != '_') := by
  intro hmem
  have := List.mem_takeWhile_imp hmem
  simp at this

theorem authorOf_pos {name : List Char} (hc : name.contains '_' = true) :
    authorOf name = String.mk (name.takeWhile (fun c => c != '_')) := by
  unfold authorOf
  split
  · rfl
  · next hfalse => exact absurd hc hfalse

theorem authorOf_neg {name : List Char} (hc : name.contains '_' = false) :
    authorOf name = "Desconocido" := by
  unfold authorOf
  split
  · next htrue => rw [hc] at htrue; cases htrue
  · rfl

/-! ### C1 -/

/-- C1: the claim says the reduction rank is clamped to the available
dimensionality (or a `DimensionalityError` reported) when the corpus has fewer
documents or terms than the target rank 50, and that the factorization never
fails there.  The code does no such thing: `TruncatedSVD` is always requested
with rank 50.  On a 2-document corpus with 2 TF-IDF features the requested
rank still exceeds the available dimensionality, so the factorization fails
(code_bug evidence, evaluated at that failing input). -/
theorem svd_rank_not_clamped :
    factorizationFails 2 2 svd_n_components = true
    ∧ svd_n_components ≠ specClampedRank 2 2 := by decide

/-! ### C4 -/

/-- C4: every directory entry ending in ".txt" produces exactly one Document
whose author label is the substring before the first underscore (sentinel
"Desconocido" when no underscore occurs) and whose display name is the
filename without its ".txt" extension; entries without the extension produce
no Document. -/
theorem corpus_loader_contract (name : List Char) (content : String) :
    (endsWithTxt name = true →
       loadDocuments [(name, content)] =
         [{ rawText := content, author := authorOf name,
            displayName := String.mk (dropExt name) }]
       ∧ name = dropExt name ++ ['.', 't', 'x', 't']
       ∧ (name.contains '_' = true →
            (∃ rest, name = name.takeWhile (fun c => c != '_') ++ '_' :: rest)
            ∧ '_' ∉ name.takeWhile (fun c => c != '_')
            ∧ authorOf name = String.mk (name.takeWhile (fun c => c != '_')))
       ∧ (name.contains '_' = false → authorOf name = "Desconocido"))
    ∧ (endsWithTxt name = false → loadDocuments [(name, content)] = []) := by
  constructor
  · intro h
    refine ⟨?_, ?_, ?_, ?_⟩
    · simp [loadDocuments, h]
    · have hsuf : ['.', 't', 'x', 't'] <:+ name := by
        rw [← List.isSuffixOf_iff_suffix]
        exact h
      obtain ⟨t, ht⟩ := hsuf
      have hlen : name.length = t.length + 4 := by
        rw [← ht, List.length_append]
        rfl
      have hdrop : dropExt name = t := by
        rw [dropExt, hlen, ← ht, Nat.add_sub_cancel]
        exact List.take_left t ['.', 't', 'x', 't']
      rw [hdrop, ht]
    · intro hc
      exact ⟨exists_rest_of_contains name hc, not_underscore_mem_takeWhile name,
        authorOf_pos hc⟩
    · intro hc
      exact authorOf_neg hc
  · intro h
    simp [loadDocuments, h]

theorem corpus_loader_contract_witness :
    loadDocuments [("Seneca_A.txt".toList, "lorem")] =
      [{ rawText := "lorem", author := authorOf "Seneca_A.txt".toList,
         displayName := String.mk (dropExt "Seneca_A.txt".toList) }]
    ∧ authorOf "Seneca_A.txt".toList
        = String.mk ("Seneca_A.txt".toList.takeWhile (fun c => c != '_')) :=
  ⟨((corpus_loader_contract "Seneca_A.txt".toList "lorem").1 (by decide)).1,
   (((corpus_loader_contract "Seneca_A.txt".toList "lorem").1 (by decide)).2.2.1
     (by decide)).2.2⟩

/-! ### C7 -/

/-- C7: the t-SNE perplexity is `min(30, max(2, n div 3))` and the UMAP
neighbour count is `min(15, max(2, n div 3))`, i.e. each equals the spec's
formula `min(library default, max(2, n/3))` with library defaults 30 and 15
respectively. -/
theorem projection_locality_autoscaling (n : ℕ) :
    perplexity n = specLocalityScale 30 n ∧ n_neighbors n = specLocalityScale 15 n :=
  ⟨rfl, rfl⟩

/-! ### C8 -/

/-- C8: the claim says a configuration with `ngram_min > ngram_max` makes the
pipeline raise a validation error.  The app's entire validation of this
configuration is the two independent per-field bounds 1..10; the pair (3, 2)
passes it and is handed to the vectorizer unchanged (code_bug evidence,
evaluated at that failing input). -/
theorem ngram_order_not_validated :
    ngram_config_ok 3 2 = true ∧ tfidf_ngram_range 3 2 = (3, 2) ∧ 2 < 3 := by decide

/-! ### C9 -/

/-- C9: the claim says a corpus with fewer than 2 documents or fewer than 2
distinct labels raises an `EmptyCorpusError` before nearest-centroid fitting.
The code performs no such check: a one-document corpus flows straight through
`load_and_train_model` into the classifier fit, which computes a one-class
model (code_bug evidence, evaluated at that failing input). -/
theorem single_document_corpus_reaches_fit :
    (load_and_train_model [("A_x.txt".toList, "abc")] [[1]]).classes = ["A"]
    ∧ (load_and_train_model [("A_x.txt".toList, "abc")] [[1]]).texts.length = 1
    ∧ (load_and_train_model [("A_x.txt".toList, "abc")] [[1]]).classes.length < 2 := by
  decide

/-! ### C10 -/

/-- C10: a ".txt" filename starting with an underscore gets the empty string
as its author label (the `split("_")[0]` branch), which is distinct from the
sentinel "Desconocido" reserved for filenames with no underscore at all. -/
theorem loader_empty_author_on_leading_separator (rest : List Char) (content : String)
    (h : endsWithTxt ('_' :: rest) = true) :
    loadLabels [(('_' :: rest), content)] = [""] ∧ ("" : String) ≠ "Desconocido" := by
  refine ⟨?_, by decide⟩
  have hc : ('_' :: rest).contains '_' = true := by simp [List.contains_cons]
  have ha : authorOf ('_' :: rest) = String.mk (('_' :: rest).takeWhile (fun c => c != '_')) :=
    authorOf_pos hc
  have htw : ('_' :: rest).takeWhile (fun c => c != '_') = [] := by
    simp [List.takeWhile]
  rw [htw] at ha
  simp [loadLabels, h, ha]

theorem loader_empty_author_on_leading_separator_witness :
    loadLabels [(('_' :: "foo.txt".toList), "body")] = [""]
    ∧ ("" : String) ≠ "Desconocido" :=
  loader_empty_author_on_leading_separator "foo.txt".toList "body" (by decide)

/-! ### C2 -/

theorem distance_matrix_getD (x : List (List ℚ)) (centroids : List (List ℚ))
    (classes labels filenames : List String) (i : ℕ) (hi : i < filenames.length) :
    (distance_matrix x centroids classes labels filenames).getD i default =
      { texto := filenames.getD i ""
        autor := labels.getD i ""
        dists := (cdistRow (x.getD i []) centroids).map round5
        masCercano := classes.getD (argminIdx (cdistRow (x.getD i []) centroids)) "" } := by
  have hlen : i < (distance_matrix x centroids classes labels filenames).length := by
    simpa [distance_matrix] using hi
  rw [List.getD_eq_getElem _ _ hlen]
  simp [distance_matrix]

/-- C2: in every row of the distance table, the "Más cercano" label is the
label of the argmin of that row's distances to the centroids, and coincides
with the classifier's `predict` on that document's dense vector. -/
theorem distance_reporter_consistent (x centroids : List (List ℚ))
    (classes labels filenames : List String) (i : ℕ) (hi : i < filenames.length) :
    ((distance_matrix x centroids classes labels filenames).getD i default).masCercano
      = classes.getD (argminIdx (cdistRow (x.getD i []) centroids)) ""
    ∧ ((distance_matrix x centroids classes labels filenames).getD i default).masCercano
      = predict classes centroids (x.getD i []) := by
  have h := distance_matrix_getD x centroids classes labels filenames i hi
  exact ⟨by rw [h], by rw [h]; rfl⟩

/-! ### C6: argmin and squared-distance facts -/

theorem argminAux_of_le (l : List ℚ) : ∀ (bestVal : ℚ) (bestIdx cur : ℕ),
    (∀ v ∈ l, bestVal ≤ v) → argminAux l bestVal bestIdx cur = bestIdx := by
  induction l with
  | nil => intro _ _ _ _; rfl
  | cons v vs ih =>
    intro bestVal bestIdx cur hle
    have h1 : ¬ v < bestVal := not_lt.mpr (hle v (List.mem_cons_self v vs))
    rw [argminAux, if_neg h1]
    exact ih bestVal bestIdx (cur + 1) (fun w hw => hle w (List.mem_cons_of_mem v hw))

theorem argminAux_of_strict (l : List ℚ) : ∀ (k : ℕ) (hk : k < l.length)
    (bestVal : ℚ) (bestIdx cur : ℕ),
    l.get ⟨k, hk⟩ < bestVal →
    (∀ j (hj : j < l.length), j ≠ k → l.get ⟨k, hk⟩ < l.get ⟨j, hj⟩) →
    argminAux l bestVal bestIdx cur = cur + k := by
  induction l with
  | nil => intro k hk; cases hk
  | cons v vs ih =>
    intro k hk bestVal bestIdx cur hbest hmin
    match k with
    | 0 =>
      have hv : v < bestVal := hbest
      rw [argminAux, if_pos hv]
      have hle' : ∀ w ∈ vs, v ≤ w := by
        intro w hw
        obtain ⟨⟨j, hj⟩, hget⟩ := List.get_of_mem hw
        have hlt : v < vs.get ⟨j, hj⟩ :=
          hmin (j + 1) (Nat.succ_lt_succ hj) (Nat.succ_ne_zero j)
        rw [hget] at hlt
        exact le_of_lt hlt
      rw [argminAux_of_le vs v cur (cur + 1) hle']
      omega
    | k' + 1 =>
      have hk' : k' < vs.length := Nat.lt_of_succ_lt_succ hk
      have hbest' : vs.get ⟨k', hk'⟩ < bestVal := hbest
      have hmin' : ∀ j (hj : j < vs.length), j ≠ k' → vs.get ⟨k', hk'⟩ < vs.get ⟨j, hj⟩ :=
        fun j hj hne =>
          hmin (j + 1) (Nat.succ_lt_succ hj) (fun hcon => hne (Nat.succ_injective hcon))
      by_cases hv : v < bestVal
      · rw [argminAux, if_pos hv]
        have hlt : vs.get ⟨k', hk'⟩ < v :=
          hmin 0 (Nat.succ_pos vs.length) (Nat.succ_ne_zero k').symm
        rw [ih k' hk' v cur (cur + 1) hlt hmin']
        omega
      · rw [argminAux, if_neg hv]
        rw [ih k' hk' bestVal bestIdx (cur + 1) hbest' hmin']
        omega

theorem argminIdx_of_strict (l : List ℚ) (k : ℕ) (hk : k < l.length)
    (hmin : ∀ j (hj : j < l.length), j ≠ k → l.get ⟨k, hk⟩ < l.get ⟨j, hj⟩) :
    argminIdx l = k := by
  match l, hk with
  | v :: vs, hk =>
    match k with
    | 0 =>
      rw [argminIdx]
      apply argminAux_of_le
      intro w hw
      obtain ⟨⟨j, hj⟩, hget⟩ := List.get_of_mem hw
      have hlt : v < vs.get ⟨j, hj⟩ :=
        hmin (j + 1) (Nat.succ_lt_succ hj) (Nat.succ_ne_zero j)
      rw [hget] at hlt
      exact le_of_lt hlt
    | k' + 1 =>
      rw [argminIdx]
      have hk' : k' < vs.length := Nat.lt_of_succ_lt_succ hk
      have hbest : vs.get ⟨k', hk'⟩ < v :=
        hmin 0 (Nat.succ_pos vs.length) (Nat.succ_ne_zero k').symm
      have hmin' : ∀ j (hj : j < vs.length), j ≠ k' → vs.get ⟨k', hk'⟩ < vs.get ⟨j, hj⟩ :=
        fun j hj hne =>
          hmin (j + 1) (Nat.succ_lt_succ hj) (fun hcon => hne (Nat.succ_injective hcon))
      rw [argminAux_of_strict vs k' hk' v 0 1 hbest hmin']
      omega

theorem sqDist_self : ∀ (v : List ℚ), sqDist v v = 0 := by
  intro v
  induction v with
  | nil => rfl
  | cons a v ih =>
    rw [sqDist] at ih ⊢
    simp [List.zipWith, ih]

theorem sqDist_nonneg : ∀ (v w : List ℚ), 0 ≤ sqDist v w := by
  intro v
  induction v with
  | nil => intro w; rw [sqDist]; simp
  | cons a v ih =>
    intro w
    match w with
    | [] => rw [sqDist]; simp
    | b :: w =>
      rw [sqDist, List.zipWith, List.sum_cons]
      have h1 : (0 : ℚ) ≤ (a - b) ^ 2 := sq_nonneg _
      have h2 := ih w
      rw [sqDist] at h2
      exact add_nonneg h1 h2

theorem sqDist_pos_of_ne : ∀ (v w : List ℚ), v.length = w.length → v ≠ w →
    0 < sqDist v w := by
  intro v
  induction v with
  | nil =>
    intro w hlen hne
    exact absurd (List.length_eq_zero.mp hlen.symm).symm hne
  | cons a v ih =>
    intro w hlen hne
    match w with
    | [] => cases hlen
    | b :: w =>
      rw [sqDist, List.zipWith, List.sum_cons]
      by_cases hab : a = b
      · have hvw : v ≠ w := by
          intro hcon
          exact hne (by rw [hab, hcon])
        have h2 : 0 < sqDist v w := ih w (Nat.succ_injective hlen) hvw
        rw [sqDist] at h2
        have h1 : (0 : ℚ) ≤ (a - b) ^ 2 := sq_nonneg _
        linarith
      · have hsub : a - b ≠ 0 := sub_ne_zero.mpr hab
        have h1 : (0 : ℚ) < (a - b) ^ 2 :=
          lt_of_le_of_ne (sq_nonneg _) (Ne.symm (pow_ne_zero 2 hsub))
        have h2 := sqDist_nonneg v w
        rw [sqDist] at h2
        linarith

/-- C6 counterexample: a classifier fitted on the two-document corpus
`X_reduced = [[0], [0]]`, `labels = ["A", "B"]` — two authors whose reduced
vectors coincide — has centroids `[[0], [0]]`, and predicting the centroid of
class "B" (index 1) yields "A", not "B" (the argmin tie breaks to the first
class).  So "for every fitted classifier, each centroid is predicted as its
own label" is false as stated. -/
theorem centroid_prediction_not_reflexive :
    fitCentroids [[0], [0]] ["A", "B"] = [[0], [0]]
    ∧ classesOf ["A", "B"] = ["A", "B"]
    ∧ predict (classesOf ["A", "B"]) (fitCentroids [[0], [0]] ["A", "B"])
        ((fitCentroids [[0], [0]] ["A", "B"]).getD 1 []) = "A"
    ∧ (classesOf ["A", "B"]).getD 1 "" = "B"
    ∧ ("A" : String) ≠ "B" := by
  have hcls : classesOf ["A", "B"] = ["A", "B"] := by decide
  have hfit : fitCentroids [[0], [0]] ["A", "B"] = [[0], [0]] := by
    rw [fitCentroids, hcls]
    simp [classRows, meanVec, vecAdd]
  have hsq : sqDist [(0 : ℚ)] [0] = 0 := by norm_num [sqDist]
  have hrow : cdistRow [(0 : ℚ)] [[0], [0]] = [0, 0] := by simp [cdistRow, hsq]
  have hargmin : argminIdx [(0 : ℚ), 0] = 0 := by
    rw [argminIdx, argminAux, if_neg (lt_irrefl (0 : ℚ))]
    rfl
  refine ⟨hfit, hcls, ?_, by rw [hcls]; rfl, by decide⟩
  rw [hcls, hfit]
  show predict ["A", "B"] [[0], [0]] [0] = "A"
  rw [predict, hrow, hargmin]
  rfl

/-- C6 (amended): if the per-class centroids are pairwise distinct vectors of
one common width, then predicting any centroid yields that centroid's own
label.  (The unamended claim fails when two classes share a centroid; see the
counterexample.) -/
theorem predict_centroid_reflexive (classes : List String)
    (centroids : List (List ℚ)) (d k : ℕ)
    (hk : k < centroids.length)
    (hnd : centroids.Nodup)
    (hdim : ∀ c ∈ centroids, c.length = d) :
    predict classes centroids (centroids.getD k []) = classes.getD k "" := by
  have hy : centroids.getD k [] = centroids.get ⟨k, hk⟩ := getD_of_lt centroids k [] hk
  have hrowlen : (cdistRow (centroids.getD k []) centroids).length = centroids.length := by
    rw [cdistRow, List.length_map]
  have hargmin : argminIdx (cdistRow (centroids.getD k []) centroids) = k := by
    apply argminIdx_of_strict _ k (by rw [hrowlen]; exact hk)
    intro j hj hne
    have hj' : j < centroids.length := by rw [hrowlen] at hj; exact hj
    have hget_k : (cdistRow (centroids.getD k []) centroids).get ⟨k, by rw [hrowlen]; exact hk⟩
        = sqDist (centroids.getD k []) (centroids.get ⟨k, hk⟩) := by
      simp [cdistRow]
    have hget_j : (cdistRow (centroids.getD k []) centroids).get ⟨j, hj⟩
        = sqDist (centroids.getD k []) (centroids.get ⟨j, hj'⟩) := by
      simp [cdistRow]
    rw [hget_k, hget_j, hy, sqDist_self]
    apply sqDist_pos_of_ne
    · rw [hdim _ (List.get_mem centroids _ _), hdim _ (List.get_mem centroids _ _)]
    · intro hcon
      have hfin := (hnd.get_inj_iff).mp hcon
      exact hne (congrArg Fin.val hfin).symm
  rw [predict, hargmin]

theorem predict_centroid_reflexive_witness :
    predict ["A", "B"] [[(0 : ℚ)], [1]] (([[(0 : ℚ)], [1]]).getD 1 [])
      = (["A", "B"]).getD 1 "" :=
  predict_centroid_reflexive ["A", "B"] [[(0 : ℚ)], [1]] 1 1 (by decide) (by decide)
    (by decide)

theorem distance_reporter_consistent_witness :
    ((distance_matrix [[0]] [[(0 : ℚ)], [1]] ["A", "B"] ["A"] ["f"]).getD 0 default).masCercano
      = (["A", "B"]).getD
          (argminIdx (cdistRow (([[(0 : ℚ)]]).getD 0 []) [[(0 : ℚ)], [1]])) ""
    ∧ ((distance_matrix [[0]] [[(0 : ℚ)], [1]] ["A", "B"] ["A"] ["f"]).getD 0 default).masCercano
      = predict ["A", "B"] [[(0 : ℚ)], [1]] (([[(0 : ℚ)]]).getD 0 []) :=
  distance_reporter_consistent [[0]] [[(0 : ℚ)], [1]] ["A", "B"] ["A"] ["f"] 0 (by decide)

/-! ### C5 -/

/-- C5: row order and row count are preserved end-to-end: the loader's three
lists all have one entry per Document in load order, the Distance Reporter
table has one row per Document (given the library contract that the reduced
matrix has one row per input text, taken as the hypothesis on `x`), and row
`i` of the table carries the display name and author label of the `i`-th
Document. -/
theorem pipeline_rows_aligned (files : List (List Char × String))
    (x centroids : List (List ℚ)) (classes : List String)
    (hx : x.length = (loadDocuments files).length)
    (i : ℕ) (hi : i < (loadDocuments files).length) :
    (loadTexts files).length = (loadDocuments files).length
    ∧ (loadLabels files).length = (loadDocuments files).length
    ∧ (loadFilenames files).length = (loadDocuments files).length
    ∧ (distance_matrix x centroids classes (loadLabels files) (loadFilenames files)).length
        = (loadDocuments files).length
    ∧ x.length
        = (distance_matrix x centroids classes (loadLabels files) (loadFilenames files)).length
    ∧ ((distance_matrix x centroids classes (loadLabels files)
          (loadFilenames files)).getD i default).texto
        = ((loadDocuments files).getD i default).displayName
    ∧ ((distance_matrix x centroids classes (loadLabels files)
          (loadFilenames files)).getD i default).autor
        = ((loadDocuments files).getD i default).author := by
  have h1 : (loadTexts files).length = (loadDocuments files).length := by
    simp [loadTexts, loadDocuments]
  have h2 : (loadLabels files).length = (loadDocuments files).length := by
    simp [loadLabels, loadDocuments]
  have h3 : (loadFilenames files).length = (loadDocuments files).length := by
    simp [loadFilenames, loadDocuments]
  have h4 : (distance_matrix x centroids classes (loadLabels files)
      (loadFilenames files)).length = (loadDocuments files).length := by
    rw [distance_matrix, List.length_map, List.length_range, h3]
  have hif : i < (loadFilenames files).length := by rw [h3]; exact hi
  have hrow := distance_matrix_getD x centroids classes (loadLabels files)
    (loadFilenames files) i hif
  have hil : i < (loadLabels files).length := by rw [h2]; exact hi
  refine ⟨h1, h2, h3, h4, by rw [hx, h4], ?_, ?_⟩
  · rw [hrow]
    show (loadFilenames files).getD i "" = ((loadDocuments files).getD i default).displayName
    rw [getD_of_lt _ i "" hif, getD_of_lt _ i default hi]
    simp [loadFilenames, loadDocuments]
  · rw [hrow]
    show (loadLabels files).getD i "" = ((loadDocuments files).getD i default).author
    rw [getD_of_lt _ i "" hil, getD_of_lt _ i default hi]
    simp [loadLabels, loadDocuments]

theorem pipeline_rows_aligned_witness :
    (loadTexts [("A_x.txt".toList, "u"), ("B_y.txt".toList, "v")]).length
        = (loadDocuments [("A_x.txt".toList, "u"), ("B_y.txt".toList, "v")]).length
    ∧ (loadLabels [("A_x.txt".toList, "u"), ("B_y.txt".toList, "v")]).length
        = (loadDocuments [("A_x.txt".toList, "u"), ("B_y.txt".toList, "v")]).length
    ∧ (loadFilenames [("A_x.txt".toList, "u"), ("B_y.txt".toList, "v")]).length
        = (loadDocuments [("A_x.txt".toList, "u"), ("B_y.txt".toList, "v")]).length
    ∧ (distance_matrix [[(0 : ℚ)], [1]] [[(0 : ℚ)]] ["A", "B"]
          (loadLabels [("A_x.txt".toList, "u"), ("B_y.txt".toList, "v")])
          (loadFilenames [("A_x.txt".toList, "u"), ("B_y.txt".toList, "v")])).length
        = (loadDocuments [("A_x.txt".toList, "u"), ("B_y.txt".toList, "v")]).length
    ∧ ([[(0 : ℚ)], [1]] : List (List ℚ)).length
        = (distance_matrix [[(0 : ℚ)], [1]] [[(0 : ℚ)]] ["A", "B"]
            (loadLabels [("A_x.txt".toList, "u"), ("B_y.txt".toList, "v")])
            (loadFilenames [("A_x.txt".toList, "u"), ("B_y.txt".toList, "v")])).length
    ∧ ((distance_matrix [[(0 : ℚ)], [1]] [[(0 : ℚ)]] ["A", "B"]
          (loadLabels [("A_x.txt".toList, "u"), ("B_y.txt".toList, "v")])
          (loadFilenames [("A_x.txt".toList, "u"), ("B_y.txt".toList, "v")])).getD 0
            default).texto
        = ((loadDocuments [("A_x.txt".toList, "u"), ("B_y.txt".toList, "v")]).getD 0
            default).displayName
    ∧ ((distance_matrix [[(0 : ℚ)], [1]] [[(0 : ℚ)]] ["A", "B"]
          (loadLabels [("A_x.txt".toList, "u"), ("B_y.txt".toList, "v")])
          (loadFilenames [("A_x.txt".toList, "u"), ("B_y.txt".toList, "v")])).getD 0
            default).autor
        = ((loadDocuments [("A_x.txt".toList, "u"), ("B_y.txt".toList, "v")]).getD 0
            default).author :=
  pipeline_rows_aligned [("A_x.txt".toList, "u"), ("B_y.txt".toList, "v")]
    [[(0 : ℚ)], [1]] [[(0 : ℚ)]] ["A", "B"] (by decide) 0 (by decide)

/-! ### C3: confusion-record lemmas -/

theorem filterMap_if_eq_filter_map {α β : Type} (l : List α) (p : α → Prop)
    [DecidablePred p] (g : α → β) :
    l.filterMap (fun a => if p a then some (g a) else none)
      = (l.filter (fun a => decide (p a))).map g := by
  induction l with
  | nil => rfl
  | cons a l ih =>
    by_cases h : p a
    · simp [List.filterMap_cons, List.filter_cons, h, ih]
    · simp [List.filterMap_cons, List.filter_cons, h, ih]

theorem identify_confusion_errors_eq (labels yPred filenames classes : List String) :
    identify_confusion_errors labels yPred filenames classes
      = (offDiagCells labels yPred classes).map
          (fun c => mkConfusionRecord labels yPred filenames classes c.1 c.2) := by
  rw [identify_confusion_errors, offDiagCells, List.map_flatMap]
  refine congrArg _ (funext fun i => ?_)
  rw [filterMap_if_eq_filter_map (List.range classes.length)
    (fun j => i ≠ j ∧ 0 < cmCell labels yPred (classes.getD i "") (classes.getD j ""))
    (fun j => mkConfusionRecord labels yPred filenames classes i j), List.map_map]
  rfl

theorem zip3_map_proj12 : ∀ (l y f : List String), l.length = y.length →
    l.length = f.length →
    (zip3 l y f).map (fun t => (t.1, t.2.1)) = l.zip y := by
  intro l
  induction l with
  | nil =>
    intro y f h1 _
    have hy : y = [] := List.length_eq_zero.mp h1.symm
    subst hy
    rfl
  | cons a l ih =>
    intro y f h1 h2
    cases y with
    | nil => simp at h1
    | cons b ys =>
      cases f with
      | nil => simp at h2
      | cons c fs =>
        rw [zip3, List.map_cons, List.zip_cons_cons,
          ih ys fs (Nat.succ_injective h1) (Nat.succ_injective h2)]

theorem zip3_map_proj3 : ∀ (l y f : List String), l.length = y.length →
    l.length = f.length →
    (zip3 l y f).map (fun t => t.2.2) = f := by
  intro l
  induction l with
  | nil =>
    intro y f h1 h2
    have hy : y = [] := List.length_eq_zero.mp h1.symm
    have hf : f = [] := List.length_eq_zero.mp h2.symm
    subst hy
    subst hf
    rfl
  | cons a l ih =>
    intro y f h1 h2
    cases y with
    | nil => simp at h1
    | cons b ys =>
      cases f with
      | nil => simp at h2
      | cons c fs =>
        rw [zip3, List.map_cons, ih ys fs (Nat.succ_injective h1) (Nat.succ_injective h2)]

theorem length_misclassifiedFiles (labels yPred filenames : List String) (a b : String)
    (h1 : labels.length = yPred.length) (h2 : labels.length = filenames.length) :
    (misclassifiedFiles labels yPred filenames a b).length = cmCell labels yPred a b := by
  rw [misclassifiedFiles, List.length_map, ← List.countP_eq_length_filter, cmCell,
    ← zip3_map_proj12 labels yPred filenames h1 h2, List.countP_map]
  rfl

theorem mem_offDiagCells {labels yPred classes : List String} {c : ℕ × ℕ} :
    c ∈ offDiagCells labels yPred classes ↔
      c.1 < classes.length ∧ c.2 < classes.length ∧ c.1 ≠ c.2
      ∧ 0 < cmCell labels yPred (classes.getD c.1 "") (classes.getD c.2 "") := by
  rw [offDiagCells]
  constructor
  · intro hc
    obtain ⟨i, hi, hc2⟩ := List.mem_flatMap.mp hc
    obtain ⟨j', hj', hje⟩ := List.mem_map.mp hc2
    obtain ⟨hjr, hcond⟩ := List.mem_filter.mp hj'
    subst hje
    have hcond' := of_decide_eq_true hcond
    exact ⟨List.mem_range.mp hi, List.mem_range.mp hjr, hcond'.1, hcond'.2⟩
  · intro h
    obtain ⟨h1, h2, h3, h4⟩ := h
    apply List.mem_flatMap.mpr
    refine ⟨c.1, List.mem_range.mpr h1, ?_⟩
    apply List.mem_map.mpr
    refine ⟨c.2, ?_, rfl⟩
    apply List.mem_filter.mpr
    exact ⟨List.mem_range.mpr h2, decide_eq_true ⟨h3, h4⟩⟩

theorem offDiagCells_nodup (labels yPred classes : List String) :
    (offDiagCells labels yPred classes).Nodup := by
  rw [offDiagCells]
  apply List.nodup_flatMap.mpr
  constructor
  · intro i _
    exact List.Nodup.map (fun a b h => congrArg Prod.snd h)
      (List.Nodup.filter _ (List.nodup_range _))
  · apply List.Pairwise.imp_of_mem ?_ (List.nodup_range classes.length)
    intro i i' _ _ hne p hp hp'
    obtain ⟨j, _, hje⟩ := List.mem_map.mp hp
    obtain ⟨j', _, hje'⟩ := List.mem_map.mp hp'
    have : i = i' := by
      have e := hje.trans hje'.symm
      exact congrArg Prod.fst e
    exact hne this

theorem misclassified_disjoint (labels yPred filenames : List String)
    (h1 : labels.length = yPred.length) (h2 : labels.length = filenames.length)
    (hfn : filenames.Nodup) (a b a' b' : String) (hne : (a, b) ≠ (a', b')) :
    ∀ s ∈ misclassifiedFiles labels yPred filenames a b,
      s ∉ misclassifiedFiles labels yPred filenames a' b' := by
  intro s hs hs'
  rw [misclassifiedFiles] at hs hs'
  obtain ⟨t, ht, hts⟩ := List.mem_map.mp hs
  obtain ⟨t', ht', hts'⟩ := List.mem_map.mp hs'
  obtain ⟨htz, htp⟩ := List.mem_filter.mp ht
  obtain ⟨htz', htp'⟩ := List.mem_filter.mp ht'
  have h3 : t.2.2 = t'.2.2 := by rw [hts, hts']
  have hmapnd : ((zip3 labels yPred filenames).map (fun t => t.2.2)).Nodup := by
    rw [zip3_map_proj3 labels yPred filenames h1 h2]
    exact hfn
  have htt : t = t' := List.inj_on_of_nodup_map hmapnd htz htz' h3
  subst htt
  simp only [Bool.and_eq_true, beq_iff_eq] at htp htp'
  apply hne
  have ea : a = a' := htp.1.symm.trans htp'.1
  have eb : b = b' := htp.2.symm.trans htp'.2
  rw [ea, eb]

theorem countP_eq_one_of_nodup {α : Type} (l : List α) (p : α → Bool) (c : α)
    (hl : l.Nodup) (hc : c ∈ l) (hp : ∀ a ∈ l, (p a = true ↔ a = c)) :
    l.countP p = 1 := by
  induction l with
  | nil => cases hc
  | cons a l ih =>
    rcases List.mem_cons.mp hc with rfl | hcl
    · rw [List.countP_cons_of_pos p l ((hp c (List.mem_cons_self c l)).mpr rfl)]
      have hnotin : c ∉ l := (List.nodup_cons.mp hl).1
      have hzero : l.countP p = 0 := by
        apply List.countP_eq_zero.mpr
        intro x hx hpx
        have hxa : x = c := (hp x (List.mem_cons_of_mem c hx)).mp hpx
        exact hnotin (hxa ▸ hx)
      rw [hzero]
    · have hne : a ≠ c := by
        intro h
        subst h
        exact (List.nodup_cons.mp hl).1 hcl
      have hpa : ¬ p a = true := fun hpa => hne ((hp a (List.mem_cons_self a l)).mp hpa)
      rw [List.countP_cons_of_neg p l hpa]
      exact ih (List.nodup_cons.mp hl).2 hcl (fun x hx => hp x (List.mem_cons_of_mem a hx))

theorem sum_flatMap_nat {α : Type} (l : List α) (f : α → List ℕ) :
    (l.flatMap f).sum = (l.map (fun a => (f a).sum)).sum := by
  induction l with
  | nil => rfl
  | cons a l ih =>
    rw [List.flatMap_cons, List.sum_append, List.map_cons, List.sum_cons, ih]

theorem filter_map_sum_eq (labels yPred classes : List String) (i : ℕ) :
    ∀ (l : List ℕ),
    ((l.filter (fun j => decide (i ≠ j
        ∧ 0 < cmCell labels yPred (classes.getD i "") (classes.getD j "")))).map
      (fun j => cmCell labels yPred (classes.getD i "") (classes.getD j ""))).sum
    = (l.map (fun j => if i = j then 0
        else cmCell labels yPred (classes.getD i "") (classes.getD j ""))).sum := by
  intro l
  induction l with
  | nil => rfl
  | cons j l ih =>
    by_cases hij : i = j
    · have hcond : decide (i ≠ j
          ∧ 0 < cmCell labels yPred (classes.getD i "") (classes.getD j "")) = false := by
        simp [hij]
      rw [List.map_cons, List.sum_cons, if_pos hij, List.filter_cons, hcond,
        if_neg (by decide : ¬ (false = true)), ih, Nat.zero_add]
    · by_cases hcm : 0 < cmCell labels yPred (classes.getD i "") (classes.getD j "")
      · have hcond : decide (i ≠ j
            ∧ 0 < cmCell labels yPred (classes.getD i "") (classes.getD j "")) = true :=
          decide_eq_true ⟨hij, hcm⟩
        rw [List.map_cons, List.sum_cons, if_neg hij, List.filter_cons, hcond,
          if_pos rfl, List.map_cons, List.sum_cons, ih]
      · have hcm0 : cmCell labels yPred (classes.getD i "") (classes.getD j "") = 0 :=
          Nat.eq_zero_of_not_pos hcm
        have hcond : decide (i ≠ j
            ∧ 0 < cmCell labels yPred (classes.getD i "") (classes.getD j "")) = false :=
          decide_eq_false (fun hand => hcm hand.2)
        rw [List.map_cons, List.sum_cons, if_neg hij, List.filter_cons, hcond,
          if_neg (by decide : ¬ (false = true)), ih, hcm0, Nat.zero_add]

/-- C3: the Evaluator emits exactly one Confusion Record per off-diagonal
confusion-matrix cell with nonzero count; the misclassified-file lists of
distinct records are pairwise disjoint; and the total number of listed files
equals the sum of all off-diagonal cells. -/
theorem confusion_records_partition (labels yPred filenames classes : List String)
    (h1 : labels.length = yPred.length) (h2 : labels.length = filenames.length)
    (hcl : classes.Nodup) (hfn : filenames.Nodup) :
    (∀ i j, i < classes.length → j < classes.length → i ≠ j →
       0 < cmCell labels yPred (classes.getD i "") (classes.getD j "") →
       (identify_confusion_errors labels yPred filenames classes).countP
         (fun r => r.true_label == classes.getD i ""
           && r.predicted_label == classes.getD j "") = 1)
    ∧ (identify_confusion_errors labels yPred filenames classes).Pairwise
        (fun r s => ∀ t ∈ r.misclassified_files, t ∉ s.misclassified_files)
    ∧ ((identify_confusion_errors labels yPred filenames classes).map
        (fun r => r.misclassified_files.length)).sum
      = offDiagTotal labels yPred classes := by
  refine ⟨?_, ?_, ?_⟩
  · intro i j hi hj hij hcm
    rw [identify_confusion_errors_eq, List.countP_map]
    apply countP_eq_one_of_nodup _ _ (i, j) (offDiagCells_nodup labels yPred classes)
      (mem_offDiagCells.mpr ⟨hi, hj, hij, hcm⟩)
    intro c hcells
    obtain ⟨hc1, hc2, _, _⟩ := mem_offDiagCells.mp hcells
    constructor
    · intro hmatch
      simp only [Function.comp, mkConfusionRecord, Bool.and_eq_true, beq_iff_eq] at hmatch
      have e1 : c.1 = i := by
        have h := hmatch.1
        rw [getD_of_lt classes c.1 "" hc1, getD_of_lt classes i "" hi] at h
        exact congrArg Fin.val ((hcl.get_inj_iff).mp h)
      have e2 : c.2 = j := by
        have h := hmatch.2
        rw [getD_of_lt classes c.2 "" hc2, getD_of_lt classes j "" hj] at h
        exact congrArg Fin.val ((hcl.get_inj_iff).mp h)
      exact Prod.ext e1 e2
    · intro hceq
      subst hceq
      simp [mkConfusionRecord]
  · rw [identify_confusion_errors_eq, List.pairwise_map]
    apply List.Pairwise.imp_of_mem ?_ (offDiagCells_nodup labels yPred classes)
    intro c d hc hd hne
    obtain ⟨hc1, hc2, _, _⟩ := mem_offDiagCells.mp hc
    obtain ⟨hd1, hd2, _, _⟩ := mem_offDiagCells.mp hd
    apply misclassified_disjoint labels yPred filenames h1 h2 hfn
    intro heq
    apply hne
    have e1 : classes.getD c.1 "" = classes.getD d.1 "" := congrArg Prod.fst heq
    have e2 : classes.getD c.2 "" = classes.getD d.2 "" := congrArg Prod.snd heq
    rw [getD_of_lt classes c.1 "" hc1, getD_of_lt classes d.1 "" hd1] at e1
    rw [getD_of_lt classes c.2 "" hc2, getD_of_lt classes d.2 "" hd2] at e2
    have f1 : c.1 = d.1 := congrArg Fin.val ((hcl.get_inj_iff).mp e1)
    have f2 : c.2 = d.2 := congrArg Fin.val ((hcl.get_inj_iff).mp e2)
    exact Prod.ext f1 f2
  · rw [identify_confusion_errors_eq, List.map_map]
    have hfun : ((fun r : ConfusionRecord => r.misclassified_files.length)
          ∘ (fun c : ℕ × ℕ => mkConfusionRecord labels yPred filenames classes c.1 c.2))
        = fun c : ℕ × ℕ =>
            cmCell labels yPred (classes.getD c.1 "") (classes.getD c.2 "") := by
      funext c
      exact length_misclassifiedFiles labels yPred filenames _ _ h1 h2
    rw [hfun, offDiagCells, List.map_flatMap, sum_flatMap_nat, offDiagTotal]
    refine congrArg List.sum ?_
    refine congrArg (fun f => List.map f (List.range classes.length)) (funext fun i => ?_)
    rw [List.map_map]
    exact filter_map_sum_eq labels yPred classes i (List.range classes.length)

theorem confusion_records_partition_witness :
    (∀ i j, i < (["A", "B"] : List String).length → j < (["A", "B"] : List String).length →
       i ≠ j →
       0 < cmCell ["A", "B"] ["B", "B"] ((["A", "B"] : List String).getD i "")
         ((["A", "B"] : List String).getD j "") →
       (identify_confusion_errors ["A", "B"] ["B", "B"] ["fa", "fb"] ["A", "B"]).countP
         (fun r => r.true_label == (["A", "B"] : List String).getD i ""
           && r.predicted_label == (["A", "B"] : List String).getD j "") = 1)
    ∧ (identify_confusion_errors ["A", "B"] ["B", "B"] ["fa", "fb"] ["A", "B"]).Pairwise
        (fun r s => ∀ t ∈ r.misclassified_files, t ∉ s.misclassified_files)
    ∧ ((identify_confusion_errors ["A", "B"] ["B", "B"] ["fa", "fb"] ["A", "B"]).map
        (fun r => r.misclassified_files.length)).sum
      = offDiagTotal ["A", "B"] ["B", "B"] ["A", "B"] :=
  confusion_records_partition ["A", "B"] ["B", "B"] ["fa", "fb"] ["A", "B"]
    (by decide) (by decide) (by decide) (by decide)

end Estilometria
